import Mathlib

/-!
# Verification of the collaborative-filtering recommender

Shallow embedding of the collaborative subsystem of the
`Recomander_systeme_Movies_Music` repository
(`collaborative/dataset.py`, `collaborative/model.py`,
`collaborative/train.py`, `collaborative/api.py`) over exact rational
arithmetic, together with theorems settling the spec's claims.

Modelling conventions:
* numpy `float64` values are embedded as `ℚ` (exact arithmetic);
* numpy elementwise operations on equal-shape arrays become `List.zipWith`
  (numpy raises on shape mismatch, so theorems carry the corresponding
  well-formedness hypotheses);
* `numpy.std` involves a real square root, which has no rational value in
  general; wherever the source divides by a standard deviation the Lean
  function takes the deviation `σ` as an explicit argument, and theorems
  constrain it by `0 ≤ σ ∧ σ * σ = variance data`, which characterises the
  standard deviation exactly;
* the in-place mutation of the python code becomes explicit state passing;
* the unseeded `np.random.shuffle` becomes an explicit per-epoch
  reordering function supplied as an argument.
-/

namespace MusicReco

/-- An interaction triplet `(user index, song index, listening count)`,
the element type of the numpy record arrays produced by `dataset.load`. -/
abbrev Trip := Nat × Nat × ℚ

/-- A dense vector of float64 values. -/
abbrev Vec := List ℚ

/-- Inner product `a.T @ b` of two equal-length numpy vectors. -/
def dot (a b : Vec) : ℚ := (List.zipWith (· * ·) a b).sum

/-- Scalar multiplication `c * v` (numpy broadcast). -/
def smul (c : ℚ) (v : Vec) : Vec := v.map (fun x => c * x)

/-- Elementwise sum `a + b` of equal-shape numpy arrays. -/
def vadd (a b : Vec) : Vec := List.zipWith (· + ·) a b

/-- Elementwise difference `a - b` of equal-shape numpy arrays. -/
def vsub (a b : Vec) : Vec := List.zipWith (· - ·) a b

/-- Squared Euclidean norm `np.linalg.norm(v) ** 2`. -/
def normSq (v : Vec) : ℚ := (v.map (fun x => x * x)).sum

/-- Embeds `arr.mean()` for a one-dimensional numpy array. -/
def mean (d : List ℚ) : ℚ := d.sum / d.length

/-- Embeds `arr.var()` (population variance, numpy's default `ddof=0`);
`arr.std()` is its square root. -/
def variance (d : List ℚ) : ℚ :=
  ((d.map (fun x => (x - mean d) ^ 2)).sum) / d.length

/-- Embeds `dataset.normalize`: replaces every listening count `x` by the z-score
`(x - mean) / std`, using the mean and standard deviation of the array
itself (`dataset.py`, lines 48-59).  The standard deviation `sigma` is
passed explicitly (see the module docstring); the faithful instantiation
is the `sigma` with `0 ≤ sigma` and `sigma * sigma = variance d`. -/
def normalize (sigma : ℚ) (d : List ℚ) : List ℚ :=
  d.map (fun x => (x - mean d) / sigma)

/-- IEEE-aware division: `0/0` (and more generally any division by zero,
which is what an unguarded numpy `/` performs when `std == 0`) yields an
undefined value, modelled as `none`. -/
def fdiv (a b : ℚ) : Option ℚ := if b = 0 then none else some (a / b)

/-- Variant of `dataset.normalize` with the undefinedness of division by a zero
standard deviation made explicit: entries that numpy would turn into NaN
become `none`. -/
def normalizeUndef (sigma : ℚ) (d : List ℚ) : List (Option ℚ) :=
  d.map (fun x => fdiv (x - mean d) sigma)

theorem sum_map_sub_div (d : List ℚ) (mu sigma : ℚ) :
    (d.map (fun x => (x - mu) / sigma)).sum = (d.sum - d.length * mu) / sigma := by
  induction d with
  | nil => simp
  | cons a t ih =>
      simp only [List.map_cons, List.sum_cons, ih, List.length_cons]
      push_cast
      ring

theorem sum_map_sq_div (d : List ℚ) (mu sigma : ℚ) :
    (d.map (fun x => ((x - mu) / sigma) ^ 2)).sum
      = (d.map (fun x => (x - mu) ^ 2)).sum / sigma ^ 2 := by
  induction d with
  | nil => simp
  | cons a t ih =>
      simp only [List.map_cons, List.sum_cons, ih]
      rw [div_pow]
      ring

/-- After one `normalize` pass the sample mean of the data is exactly 0. -/
theorem mean_normalize (sigma : ℚ) (d : List ℚ) (hd : d ≠ []) :
    mean (normalize sigma d) = 0 := by
  have hn : (d.length : ℚ) ≠ 0 := by
    have := List.length_pos.mpr hd
    positivity
  rw [mean, normalize, sum_map_sub_div, List.length_map]
  rw [mean, mul_div_cancel₀ _ hn]
  simp

/-- After one `normalize` pass the population variance of the data is the
original variance divided by `sigma ^ 2`. -/
theorem variance_normalize (sigma : ℚ) (d : List ℚ) (hd : d ≠ []) :
    variance (normalize sigma d) = variance d / sigma ^ 2 := by
  rw [variance, mean_normalize sigma d hd]
  simp only [sub_zero]
  rw [normalize, List.map_map, List.length_map]
  have : ((fun x => x ^ 2) ∘ fun x => (x - mean d) / sigma)
      = fun x => ((x - mean d) / sigma) ^ 2 := rfl
  rw [this, sum_map_sq_div, variance]
  ring

/-- C2 (amended): `normalize` IS idempotent in exact arithmetic.  For any
dataset with a positive standard deviation `s1` (`s1 * s1 = variance d`),
one pass produces data with mean 0 and variance 1, so the second pass —
whose standard deviation `s2` is therefore 1 — returns the array
unchanged.  The spec's claim that a second application yields a different,
"over-normalized" result is false. -/
theorem normalize_idempotent (d : List ℚ) (s1 s2 : ℚ) (hd : d ≠ [])
    (h1 : 0 < s1) (hv1 : s1 * s1 = variance d)
    (h2 : 0 ≤ s2) (hv2 : s2 * s2 = variance (normalize s1 d)) :
    normalize s2 (normalize s1 d) = normalize s1 d := by
  have hvar : variance (normalize s1 d) = 1 := by
    rw [variance_normalize s1 d hd, ← hv1, sq]
    field_simp
  have hs2 : s2 = 1 := by
    have hfac : (s2 - 1) * (s2 + 1) = 0 := by nlinarith [hv2, hvar]
    rcases mul_eq_zero.mp hfac with h | h
    · linarith
    · linarith
  rw [hs2]
  conv_lhs => rw [normalize, mean_normalize s1 d hd]
  simp

/-- C2 (counterexample to the claim as stated): on the dataset `[0, 4]`
(standard deviation 2, exactly representable even in float64) normalizing
twice yields exactly the same array as normalizing once, refuting "for
every interaction array, applying normalize twice yields an array
different from applying normalize once". -/
theorem normalize_twice_eq_once_on_concrete :
    (0:ℚ) < 2 ∧ (2:ℚ) * 2 = variance [0, 4] ∧
    (0:ℚ) ≤ 1 ∧ (1:ℚ) * 1 = variance (normalize 2 [0, 4]) ∧
    normalize 1 (normalize 2 [0, 4]) = normalize 2 [0, 4] := by
  refine ⟨by norm_num, ?_, by norm_num, ?_, ?_⟩ <;>
    norm_num [variance, mean, normalize]

/-- C2 witness: the amended idempotence theorem applied at the concrete
dataset `[0, 4]`. -/
theorem normalize_idempotent_witness :
    normalize 1 (normalize 2 [0, 4]) = normalize 2 [0, 4] :=
  normalize_idempotent [0, 4] 2 1 (by simp) (by norm_num)
    (by norm_num [variance, mean]) (by norm_num)
    (by norm_num [variance, mean, normalize])

/-! ## The model and the trainer (`model.py`, `train.py`) -/

/-- The four parameter arrays of `model.Model`:
`q : (#SONGS, l)`, `p : (#USERS, l)`, `b_song : (#SONGS)`,
`b_user : (#USERS)`. -/
structure Model where
  q : List Vec
  p : List Vec
  b_song : Vec
  b_user : Vec

/-- The running state of one training epoch: the parameter arrays plus
the `loss_sum` and `accuracy_sum` accumulators of `train.py`. -/
structure StepAcc where
  model : Model
  lossSum : ℚ
  accSum : ℚ

/-- One iteration of the inner SGD loop of `train.train`
(`train.py`, lines 50-77), processing a triplet `(user, song, count)`.
As in the source, `p_u`, `q_i`, `b_u`, `b_i` are `.copy()`-snapshots
taken before any write, so all four in-place updates read the parameter
values as they were at the start of the triplet. -/
def sgdStep (lbd gamma mu : ℚ) (acc : StepAcc) (t : Trip) : StepAcc :=
  let user := t.1
  let song := t.2.1
  let listening_count := t.2.2
  let m := acc.model
  let p_u := m.p.getD user []
  let q_i := m.q.getD song []
  let b_u := m.b_user.getD user 0
  let b_i := m.b_song.getD song 0
  let listenings_hat := dot p_u q_i + mu + b_u + b_i
  let e := listening_count - listenings_hat
  { model :=
      { q := m.q.set song (vadd q_i (smul gamma (vsub (smul e p_u) (smul lbd q_i))))
        p := m.p.set user (vadd p_u (smul gamma (vsub (smul e q_i) (smul lbd p_u))))
        b_song := m.b_song.set song (b_i + gamma * (e - lbd * b_i))
        b_user := m.b_user.set user (b_u + gamma * (e - lbd * b_u)) }
    lossSum := acc.lossSum + (e ^ 2 + lbd * (normSq q_i + normSq p_u))
    accSum := acc.accSum + e ^ 2 }

/-- One iteration of the validation loop of `train.train`
(`train.py`, lines 85-103): metrics only, no parameter updates. -/
def validationStep (lbd mu : ℚ) (m : Model) (acc : ℚ × ℚ) (t : Trip) : ℚ × ℚ :=
  let user := t.1
  let song := t.2.1
  let listening_count := t.2.2
  let e := listening_count -
    (dot (m.p.getD user []) (m.q.getD song []) + mu +
      m.b_user.getD user 0 + m.b_song.getD song 0)
  (acc.1 + (e ^ 2 + lbd * (normSq (m.q.getD song []) + normSq (m.p.getD user []))),
   acc.2 + e ^ 2)

/-- The per-epoch learning curves of `train.LearningStats`.  The source
stores `accuracy = sqrt(accuracy_sum / N)`; the square root has no exact
rational value, so the curves record the radicand sums `accuracy_sum`
(no claim refers to the accuracy values themselves). -/
structure LearningStats where
  losses_train : List ℚ
  losses_validation : List ℚ
  accSum_train : List ℚ
  accSum_validation : List ℚ

/-- The state a call to `train.train` mutates: the model parameters, the
caller's `train_set` array (shuffled in place once per epoch) and the
caller's `validation_set` array (only ever read). -/
structure TrainState where
  model : Model
  train_set : List Trip
  validation_set : List Trip

/-- The epoch loop of `train.train` (`train.py`, lines 41-115).  `k` is
the current epoch number; `shuffles k` is the in-place reordering that
`np.random.shuffle` applies to `train_set` at the top of epoch `k`
(explicit because the source's randomness is unseeded).  `mu` is the
`average_listening_count` computed by `train` before the loop. -/
def trainEpochs (lbd gamma mu : ℚ) (shuffles : Nat → List Trip → List Trip) :
    Nat → Nat → TrainState → TrainState × LearningStats
  | _, 0, s => (s, ⟨[], [], [], []⟩)
  | k, n + 1, s =>
      let arr := shuffles k s.train_set
      let res := arr.foldl (sgdStep lbd gamma mu) ⟨s.model, 0, 0⟩
      let vres := s.validation_set.foldl (validationStep lbd mu res.model) (0, 0)
      let rest := trainEpochs lbd gamma mu shuffles (k + 1) n
        ⟨res.model, arr, s.validation_set⟩
      (rest.1,
       ⟨res.lossSum :: rest.2.losses_train,
        vres.1 :: rest.2.losses_validation,
        res.accSum :: rest.2.accSum_train,
        vres.2 :: rest.2.accSum_validation⟩)

/-- Embeds `train.train` (`train.py`, lines 19-117): computes
`average_listening_count` as the mean listening count of `train_set`
exactly once, before the epoch loop, then runs `n_epochs` epochs.
The latent dimension `l` only appears in the source's log line. -/
def train (l : Nat) (lbd gamma : ℚ) (n_epochs : Nat)
    (shuffles : Nat → List Trip → List Trip) (s : TrainState) :
    TrainState × LearningStats :=
  let average_listening_count := mean (s.train_set.map (fun t => t.2.2))
  let _ := l
  trainEpochs lbd gamma average_listening_count shuffles 0 n_epochs s

/-- The overall reordering `train` applies to the caller's `train_set`:
the epoch-`k` shuffle, then the epoch-`k+1` shuffle, and so on. -/
def shuffleAll (shuffles : Nat → List Trip → List Trip) :
    Nat → Nat → List Trip → List Trip
  | _, 0, arr => arr
  | k, n + 1, arr => shuffleAll shuffles (k + 1) n (shuffles k arr)

theorem getD_set_self {α : Type _} (xs : List α) (i : Nat) (a d : α)
    (h : i < xs.length) : (xs.set i a).getD i d = a := by
  simp [List.getD_eq_getElem?_getD, List.getElem?_set_self h]

theorem getD_set_ne {α : Type _} (xs : List α) {i j : Nat} (a d : α)
    (h : j ≠ i) : (xs.set i a).getD j d = xs.getD j d := by
  simp [List.getD_eq_getElem?_getD, List.getElem?_set_ne (Ne.symm h)]

theorem trainEpochs_arrays (lbd gamma mu : ℚ)
    (shuffles : Nat → List Trip → List Trip) :
    ∀ (n k : Nat) (s : TrainState),
      (trainEpochs lbd gamma mu shuffles k n s).1.validation_set
          = s.validation_set ∧
      (trainEpochs lbd gamma mu shuffles k n s).1.train_set
          = shuffleAll shuffles k n s.train_set := by
  intro n
  induction n with
  | zero => intro k s; exact ⟨rfl, rfl⟩
  | succ n ih =>
      intro k s
      simpa only [trainEpochs, shuffleAll] using
        ih (k + 1)
          ⟨((shuffles k s.train_set).foldl (sgdStep lbd gamma mu)
              ⟨s.model, 0, 0⟩).model,
            shuffles k s.train_set, s.validation_set⟩

/-- C9: `train` reorders the caller's `train_set` in place, once per
epoch (the epoch-`k` reordering applied to the array as left by epoch
`k-1`), for every learning rate `gamma` — including `gamma = 0` — while
the caller's `validation_set` is never reordered or written. -/
theorem train_mutates_train_set_only (l : Nat) (lbd gamma : ℚ)
    (n_epochs : Nat) (shuffles : Nat → List Trip → List Trip)
    (s : TrainState) :
    (train l lbd gamma n_epochs shuffles s).1.validation_set
        = s.validation_set ∧
    (train l lbd gamma n_epochs shuffles s).1.train_set
        = shuffleAll shuffles 0 n_epochs s.train_set :=
  trainEpochs_arrays lbd gamma _ shuffles n_epochs 0 s

/-- The per-triplet contract of the SGD inner loop: the predicted count
is `p_u·q_i + mu + b_user[u] + b_song[i]`; with residual
`e = r - predicted`, the four parameter arrays are updated by
`q_i += gamma*(e*p_u - lbd*q_i)`, `p_u += gamma*(e*q_i - lbd*p_u)`,
`b_user[u] += gamma*(e - lbd*b_u)`, `b_song[i] += gamma*(e - lbd*b_i)`,
every update reading the values as they were at the start of the
triplet, and no other entry of any array changing. -/
def TripletUpdateSpec (lbd gamma mu : ℚ) (acc : StepAcc) (u i : Nat)
    (r : ℚ) : Prop :=
  let m := acc.model
  let p_u := m.p.getD u []
  let q_i := m.q.getD i []
  let b_u := m.b_user.getD u 0
  let b_i := m.b_song.getD i 0
  let predictedCount := dot p_u q_i + mu + b_u + b_i
  let e := r - predictedCount
  let m2 := (sgdStep lbd gamma mu acc (u, i, r)).model
  m2.q.getD i [] = vadd q_i (smul gamma (vsub (smul e p_u) (smul lbd q_i))) ∧
  m2.p.getD u [] = vadd p_u (smul gamma (vsub (smul e q_i) (smul lbd p_u))) ∧
  m2.b_user.getD u 0 = b_u + gamma * (e - lbd * b_u) ∧
  m2.b_song.getD i 0 = b_i + gamma * (e - lbd * b_i) ∧
  (∀ j, j ≠ i → m2.q.getD j [] = m.q.getD j []) ∧
  (∀ v, v ≠ u → m2.p.getD v [] = m.p.getD v []) ∧
  (∀ v, v ≠ u → m2.b_user.getD v 0 = m.b_user.getD v 0) ∧
  (∀ j, j ≠ i → m2.b_song.getD j 0 = m.b_song.getD j 0)

/-- C1: the `train` loop computes the global mean of the training set
exactly once, before the epoch loop (first conjunct, by definition of
`train`); it processes the triplets of an epoch sequentially, each
update being visible to the subsequent triplets of the same epoch
(second conjunct); and every triplet `(u, i, r)` is processed exactly as
described by `TripletUpdateSpec`: predicted count
`p_u·q_i + mean + b_user[u] + b_song[i]`, residual `e`, and the four
regularized in-place updates reading start-of-triplet values. -/
theorem train_step_spec (l : Nat) (lbd gamma : ℚ) (n_epochs : Nat)
    (shuffles : Nat → List Trip → List Trip) (s : TrainState)
    (mu : ℚ) (acc : StepAcc) (u i : Nat) (r : ℚ)
    (hu : u < acc.model.p.length) (hbu : u < acc.model.b_user.length)
    (hi : i < acc.model.q.length) (hbi : i < acc.model.b_song.length) :
    (train l lbd gamma n_epochs shuffles s
        = trainEpochs lbd gamma (mean (s.train_set.map (fun t => t.2.2)))
            shuffles 0 n_epochs s) ∧
    (∀ (ts : List Trip),
        List.foldl (sgdStep lbd gamma mu) acc ((u, i, r) :: ts)
          = List.foldl (sgdStep lbd gamma mu)
              (sgdStep lbd gamma mu acc (u, i, r)) ts) ∧
    TripletUpdateSpec lbd gamma mu acc u i r := by
  refine ⟨rfl, fun ts => rfl, ?_, ?_, ?_, ?_, ?_, ?_, ?_, ?_⟩
  · exact getD_set_self _ _ _ _ hi
  · exact getD_set_self _ _ _ _ hu
  · exact getD_set_self _ _ _ _ hbu
  · exact getD_set_self _ _ _ _ hbi
  · exact fun j hj => getD_set_ne _ _ _ hj
  · exact fun v hv => getD_set_ne _ _ _ hv
  · exact fun v hv => getD_set_ne _ _ _ hv
  · exact fun j hj => getD_set_ne _ _ _ hj

/-- C1 witness: the per-triplet contract evaluated on a concrete
one-user, one-song model. -/
theorem train_step_spec_witness :
    TripletUpdateSpec 1 1 0 ⟨⟨[[1]], [[2]], [1], [2]⟩, 0, 0⟩ 0 0 3 :=
  (train_step_spec 1 1 1 1 (fun _ arr => arr)
      ⟨⟨[[1]], [[2]], [1], [2]⟩, [(0, 0, 3)], []⟩ 0
      ⟨⟨[[1]], [[2]], [1], [2]⟩, 0, 0⟩ 0 0 3
      (by decide) (by decide) (by decide) (by decide)).2.2

theorem vadd_smul_zero (v w : Vec) (h : v.length ≤ w.length) :
    vadd v (smul 0 w) = v := by
  induction v generalizing w with
  | nil => simp [vadd]
  | cons a t ih =>
      cases w with
      | nil => simp at h
      | cons b tw =>
          simp only [vadd, smul, List.map_cons, List.zipWith_cons_cons,
            zero_mul, add_zero] at *
          exact congrArg (a :: ·) (ih tw (Nat.le_of_succ_le_succ h))

theorem set_getD_self {α : Type _} (xs : List α) (i : Nat) (d : α) :
    xs.set i (xs.getD i d) = xs := by
  induction xs generalizing i with
  | nil => simp
  | cons a t ih =>
      cases i with
      | zero => simp [List.getD]
      | succ n => simpa [List.getD_cons_succ] using ih n

/-- With `gamma = 0` one SGD step leaves the model untouched (the update
magnitudes are all `gamma`-scaled).  `hlen` is the numpy shape
condition: the factor rows `p[u]` and `q[i]` have the same length. -/
theorem sgdStep_gamma_zero (lbd mu : ℚ) (acc : StepAcc) (t : Trip)
    (hlen : (acc.model.p.getD t.1 []).length
        = (acc.model.q.getD t.2.1 []).length) :
    (sgdStep lbd 0 mu acc t).model = acc.model := by
  obtain ⟨u, i, r⟩ := t
  obtain ⟨⟨q, p, bs, bu⟩, ls, as0⟩ := acc
  simp only at hlen
  simp only [sgdStep]
  congr 1
  · have hle : (q.getD i []).length ≤
        (vsub (smul (r - (dot (p.getD u []) (q.getD i []) + mu +
          bu.getD u 0 + bs.getD i 0)) (p.getD u []))
          (smul lbd (q.getD i []))).length := by
      simp only [vsub, smul, List.length_zipWith, List.length_map,
        List.getD_eq_getElem?_getD] at hlen ⊢
      omega
    rw [vadd_smul_zero _ _ hle, set_getD_self]
  · have hle : (p.getD u []).length ≤
        (vsub (smul (r - (dot (p.getD u []) (q.getD i []) + mu +
          bu.getD u 0 + bs.getD i 0)) (q.getD i []))
          (smul lbd (p.getD u []))).length := by
      simp only [vsub, smul, List.length_zipWith, List.length_map,
        List.getD_eq_getElem?_getD] at hlen ⊢
      omega
    rw [vadd_smul_zero _ _ hle, set_getD_self]
  · rw [zero_mul, add_zero, set_getD_self]
  · rw [zero_mul, add_zero, set_getD_self]

theorem foldl_sgdStep_gamma_zero (lbd mu : ℚ) (arr : List Trip) :
    ∀ (acc : StepAcc),
      (∀ t ∈ arr, (acc.model.p.getD t.1 []).length
          = (acc.model.q.getD t.2.1 []).length) →
      (arr.foldl (sgdStep lbd 0 mu) acc).model = acc.model := by
  induction arr with
  | nil => intro acc _; rfl
  | cons t ts ih =>
      intro acc h
      have h1 := sgdStep_gamma_zero lbd mu acc t (h t (List.mem_cons_self t ts))
      rw [List.foldl_cons,
        ih (sgdStep lbd 0 mu acc t)
          (fun t' ht' => by rw [h1]; exact h t' (List.mem_cons_of_mem t ht')),
        h1]

theorem trainEpochs_model_gamma_zero (lbd mu : ℚ)
    (shuffles : Nat → List Trip → List Trip)
    (hshuf : ∀ k arr, List.Perm (shuffles k arr) arr) :
    ∀ (n k : Nat) (s : TrainState),
      (∀ t ∈ s.train_set, (s.model.p.getD t.1 []).length
          = (s.model.q.getD t.2.1 []).length) →
      (trainEpochs lbd 0 mu shuffles k n s).1.model = s.model := by
  intro n
  induction n with
  | zero => intro k s _; rfl
  | succ n ih =>
      intro k s h
      have hmem : ∀ t ∈ shuffles k s.train_set, t ∈ s.train_set :=
        fun t ht => (hshuf k s.train_set).mem_iff.mp ht
      have hm := foldl_sgdStep_gamma_zero lbd mu (shuffles k s.train_set)
        ⟨s.model, 0, 0⟩ (fun t ht => h t (hmem t ht))
      have hrec := ih (k + 1)
        ⟨((shuffles k s.train_set).foldl (sgdStep lbd 0 mu)
            ⟨s.model, 0, 0⟩).model,
          shuffles k s.train_set, s.validation_set⟩
        (fun t ht => by rw [hm]; exact h t (hmem t ht))
      simp only [trainEpochs]
      rw [hrec, hm]

/-- C6: running `train` with learning rate `gamma = 0` for any number of
epochs (in particular any number ≥ 1) leaves all four parameter arrays
`Q`, `P`, `b_song`, `b_user` exactly as they were.  `hshuf` states that
each per-epoch reordering is a permutation (what `np.random.shuffle`
does); `hwf` is the numpy shape condition that the factor rows of `P`
and `Q` addressed by the training triplets have equal lengths. -/
theorem train_gamma_zero_noop (l : Nat) (lbd : ℚ) (n_epochs : Nat)
    (shuffles : Nat → List Trip → List Trip) (s : TrainState)
    (hep : 1 ≤ n_epochs)
    (hshuf : ∀ k arr, List.Perm (shuffles k arr) arr)
    (hwf : ∀ t ∈ s.train_set, (s.model.p.getD t.1 []).length
        = (s.model.q.getD t.2.1 []).length) :
    (train l lbd 0 n_epochs shuffles s).1.model = s.model := by
  have _ := hep
  exact trainEpochs_model_gamma_zero lbd _ shuffles hshuf n_epochs 0 s hwf

/-- C6 witness: a one-epoch `gamma = 0` run on a concrete one-user,
one-song model returns the model unchanged. -/
theorem train_gamma_zero_noop_witness :
    (train 1 1 0 1 (fun _ arr => arr)
        ⟨⟨[[1]], [[2]], [1], [2]⟩, [(0, 0, 3)], []⟩).1.model
      = ⟨[[1]], [[2]], [1], [2]⟩ :=
  train_gamma_zero_noop 1 1 1 (fun _ arr => arr)
    ⟨⟨[[1]], [[2]], [1], [2]⟩, [(0, 0, 3)], []⟩
    (by decide) (fun _ arr => List.Perm.refl arr)
    (by intro t ht; simp only [List.mem_singleton] at ht; subst ht; rfl)

/-! ## Persistence (`model.py`: `save` / `load`) -/

/-- The content of one `.npy` file: a two-dimensional or one-dimensional
float64 array.  `np.save` writes a single array per file and `np.load`
restores it bit-exactly; the constructor tag stands in for the shape
metadata the `.npy` format records. -/
inductive NpFile where
  | mat (rows : List Vec)
  | vec (entries : Vec)

/-- The file system seen by `np.save` / `np.load`: path to content. -/
abbrev FileSystem := String → Option NpFile

/-- One `np.save(path, arr)` call. -/
def fsUpdate (fs : FileSystem) (key : String) (v : NpFile) : FileSystem :=
  fun path => if path = key then some v else fs path

/-- Embeds `model.save` (`model.py`, lines 27-32): four successive `np.save`
calls on the paths derived from the caller's path `pre`. -/
def save (fs : FileSystem) (pre : String) (m : Model) : FileSystem :=
  fsUpdate
    (fsUpdate
      (fsUpdate
        (fsUpdate fs (pre ++ "_q.npy") (NpFile.mat m.q))
        (pre ++ "_p.npy") (NpFile.mat m.p))
      (pre ++ "_b_song.npy") (NpFile.vec m.b_song))
    (pre ++ "_b_user.npy") (NpFile.vec m.b_user)

/-- Embeds `model.load` (`model.py`, lines 35-41): four `np.load` calls; the
load fails (raises) unless all four files are present with the saved
shapes, and no partial model is produced. -/
def load (fs : FileSystem) (pre : String) : Option Model :=
  match fs (pre ++ "_q.npy"), fs (pre ++ "_p.npy"),
      fs (pre ++ "_b_song.npy"), fs (pre ++ "_b_user.npy") with
  | some (NpFile.mat q), some (NpFile.mat p),
      some (NpFile.vec bs), some (NpFile.vec bu) => some ⟨q, p, bs, bu⟩
  | _, _, _, _ => none

theorem append_right_ne (s : String) {a b : String} (h : a ≠ b) :
    s ++ a ≠ s ++ b := fun hc =>
  h (String.ext (by simpa [String.data_append] using congrArg String.data hc))

/-- C7: saving a model under a path prefix and loading from the same
prefix restores all four parameter arrays bit-identically (in the exact
embedding: identically), for every starting file system, prefix and
model. -/
theorem save_load_roundtrip (fs : FileSystem) (pre : String) (m : Model) :
    load (save fs pre m) pre = some m := by
  have h1 : pre ++ "_q.npy" ≠ pre ++ "_p.npy" :=
    append_right_ne pre (by decide)
  have h2 : pre ++ "_q.npy" ≠ pre ++ "_b_song.npy" :=
    append_right_ne pre (by decide)
  have h3 : pre ++ "_q.npy" ≠ pre ++ "_b_user.npy" :=
    append_right_ne pre (by decide)
  have h4 : pre ++ "_p.npy" ≠ pre ++ "_b_song.npy" :=
    append_right_ne pre (by decide)
  have h5 : pre ++ "_p.npy" ≠ pre ++ "_b_user.npy" :=
    append_right_ne pre (by decide)
  have h6 : pre ++ "_b_song.npy" ≠ pre ++ "_b_user.npy" :=
    append_right_ne pre (by decide)
  simp [load, save, fsUpdate, h1, h2, h3, h4, h5, h6,
    Ne.symm h1, Ne.symm h2, Ne.symm h3, Ne.symm h4, Ne.symm h5, Ne.symm h6]

/-! ## The recommendation engine (`api.py`) -/

/-- The module-level state `api.py` builds at import time: the loaded
model arrays, the mean listening count of the full unnormalized dataset
(line 11, computed before `normalize`), the training-time
`SONG_MAPPING` (a python dict: distinct keys, distinct first-seen
indices), and `songs_metadata_indices` (the set of trained song indices
present in the metadata catalog). -/
structure ApiState where
  q : List Vec
  p : List Vec
  b_song : Vec
  b_user : Vec
  average_listening_count : ℚ
  songMapping : List (String × Nat)
  metaIndices : List Nat

/-- Embeds `SONG_MAPPING[song_id]` guarded by `song_id in SONG_MAPPING`. -/
def mappingLookup (mapping : List (String × Nat)) (s : String) : Option Nat :=
  (mapping.find? (fun kv => kv.1 == s)).map Prod.snd

/-- One python-dict assignment `d[k] = c`: replaces the value in place if
the key is present, appends otherwise. -/
def dictInsert (d : List (Nat × ℚ)) (k : Nat) (c : ℚ) : List (Nat × ℚ) :=
  if d.any (fun kv => kv.1 == k) then
    d.map (fun kv => if kv.1 == k then (k, c) else kv)
  else d ++ [(k, c)]

/-- Embeds `user_song_indexes` (`api.py`, lines 38-42): the dict comprehension
mapping each known query song id to its index, keyed by index; a key
written twice keeps the count of the last occurrence. -/
def userSongIndexes (mapping : List (String × Nat))
    (query : List (String × ℚ)) : List (Nat × ℚ) :=
  query.foldl (fun d sc =>
    match mappingLookup mapping sc.1 with
    | some idx => dictInsert d idx sc.2
    | none => d) []

/-- Embeds `idx in user_song_indexes` and `user_song_indexes[idx]`. -/
def dictLookup (d : List (Nat × ℚ)) (k : Nat) : Option ℚ :=
  (d.find? (fun kv => kv.1 == k)).map Prod.snd

/-- The positions selected by `user_songs_selector` (`api.py`,
lines 53-57): the known query-song indices in ascending order (boolean
mask selection preserves ascending index order). -/
def selectedSongs (st : ApiState) (d : List (Nat × ℚ)) : List Nat :=
  (List.range st.q.length).filter (fun i => (dictLookup d i).isSome)

/-- Row `u` of `p_user_songs` (`api.py`, lines 59-67): user `u`'s
predicted counts over the selected songs,
`p[u] @ q_sub.T + average_listening_count + b_user[u] + b_song_sub`. -/
def pUserSongsRow (st : ApiState) (sel : List Nat) (u : Nat) : Vec :=
  List.zipWith
    (fun qi bi => dot (st.p.getD u []) qi + st.average_listening_count
      + st.b_user.getD u 0 + bi)
    (sel.map (fun i => st.q.getD i []))
    (sel.map (fun i => st.b_song.getD i 0))

/-- Embeds `sorted(user_song_indexes.items(), key=lambda kv: kv[0])`. -/
def sortedItems (d : List (Nat × ℚ)) : List (Nat × ℚ) :=
  List.insertionSort (fun a b => a.1 ≤ b.1) d

/-- The count list fed to `normalize` when `api.py` (lines 68-78) builds
`user_vector`: the query's own counts, sorted by song index. -/
def queryCounts (d : List (Nat × ℚ)) : List ℚ :=
  (sortedItems d).map Prod.snd

/-- Embeds `user_vector`: the z-scored query counts; `sigma` is their standard
deviation, passed explicitly (see the module docstring). -/
def userVector (sigma : ℚ) (d : List (Nat × ℚ)) : Vec :=
  normalize sigma (queryCounts d)

/-- Embeds `p_user_songs_dist` (`api.py`, lines 80-83): squared L2 distance
between each trained user's predicted counts and the query vector. -/
def userDistances (st : ApiState) (sigma : ℚ) (d : List (Nat × ℚ)) : Vec :=
  (List.range st.p.length).map (fun u =>
    normSq (vsub (pUserSongsRow st (selectedSongs st d) u)
      (userVector sigma d)))

/-- The order `np.argsort` sorts positions in: by value, with equal
values by position (for the small arrays involved numpy's default sort
runs insertion sort, which is stable). -/
def argsortLe (v : Vec) (i j : Nat) : Prop :=
  v.getD i 0 < v.getD j 0 ∨ (v.getD i 0 = v.getD j 0 ∧ i ≤ j)

instance argsortLeDec (v : Vec) : DecidableRel (argsortLe v) := fun _ _ =>
  inferInstanceAs (Decidable (_ ∨ _))

/-- Embeds `arr.argsort()`: the positions of `v` ordered by increasing value,
ties by increasing position. -/
def argsort (v : Vec) : List Nat :=
  List.insertionSort (argsortLe v) (List.range v.length)

/-- Embeds `most_similar_user_index = p_user_songs_dist.argsort()[0]`
(`api.py`, line 86); indexing `[0]` into an empty array raises. -/
def mostSimilarUser (st : ApiState) (sigma : ℚ)
    (d : List (Nat × ℚ)) : Option Nat :=
  (argsort (userDistances st sigma d)).head?

/-- Embeds `most_similar_user_predictions` (`api.py`, lines 89-94):
`p[u] @ q.T + average_listening_count + b_user[u] + b_song`. -/
def userCatalogPreds (st : ApiState) (u : Nat) : Vec :=
  List.zipWith (fun x bi => x + bi)
    (st.q.map (fun qi => dot (st.p.getD u []) qi
      + st.average_listening_count + st.b_user.getD u 0))
    st.b_song

/-- Embeds `valid_indices` (`api.py`, line 98): catalog indices present in the
metadata set, in ascending order. -/
def validIndices (st : ApiState) (u : Nat) : List Nat :=
  (List.range (userCatalogPreds st u).length).filter
    (fun i => st.metaIndices.contains i)

/-- Embeds `valid_indices[preds[valid_indices].argsort()[-5:][::-1]]`
(`api.py`, line 99): the last five positions of the ascending argsort,
reversed — equivalently the first five of the reversed argsort — mapped
back through `valid_indices`. -/
def topSongs (st : ApiState) (u : Nat) : List Nat :=
  ((argsort ((validIndices st u).map
      (fun i => (userCatalogPreds st u).getD i 0))).reverse.take 5).map
    (fun j => (validIndices st u).getD j 0)

/-- Embeds `SONG_MAPPING_REVERT` (`api.py`, lines 25-27): index back to song
id (SONG_MAPPING assigns distinct indices, so the inversion is exact on
trained indices). -/
def songMappingRevert (st : ApiState) (i : Nat) : String :=
  ((st.songMapping.find? (fun kv => kv.2 == i)).map Prod.fst).getD ""

/-- Embeds `api.get_recommendations` (`api.py`, lines 35-100).  `sigma` is the
standard deviation of the query's own sorted counts (see the module
docstring).  The two `none` outcomes model the two `IndexError`s the
numpy code raises: `argsort()[0]` on an empty distance array (no
trained users), and fancy indexing with `np.array([])` — whose dtype is
float64, which numpy rejects as an index — when no catalog index
survives the metadata restriction. -/
def get_recommendations (st : ApiState) (sigma : ℚ)
    (users_listenings : List (String × ℚ)) : Option (List String) :=
  let d := userSongIndexes st.songMapping users_listenings
  if d.isEmpty then some []
  else
    match mostSimilarUser st sigma d with
    | none => none
    | some u =>
        if (validIndices st u).isEmpty then none
        else some ((topSongs st u).map (songMappingRevert st))

theorem userSongIndexes_all_unknown (mapping : List (String × Nat))
    (query : List (String × ℚ))
    (h : ∀ sc ∈ query, mappingLookup mapping sc.1 = none) :
    userSongIndexes mapping query = [] := by
  induction query with
  | nil => rfl
  | cons sc rest ih =>
      unfold userSongIndexes at *
      simp only [List.foldl_cons, h sc (List.mem_cons_self sc rest)]
      exact ih (fun sc' h' => h sc' (List.mem_cons_of_mem _ h'))

/-- C5: a query none of whose song identifiers is in the training-time
song mapping produces the empty recommendation list — an ordinary
`return []`, not an error (`none`). -/
theorem get_recommendations_all_unknown (st : ApiState) (sigma : ℚ)
    (query : List (String × ℚ))
    (h : ∀ sc ∈ query, mappingLookup st.songMapping sc.1 = none) :
    get_recommendations st sigma query = some [] := by
  unfold get_recommendations
  rw [userSongIndexes_all_unknown st.songMapping query h]
  rfl

/-- C5 witness: a concrete query with only unknown song ids. -/
theorem get_recommendations_all_unknown_witness :
    get_recommendations ⟨[[1]], [[1]], [0], [0], 0, [("A", 0)], [0]⟩ 1
      [("B", 1), ("C", 2)] = some [] :=
  get_recommendations_all_unknown ⟨[[1]], [[1]], [0], [0], 0, [("A", 0)], [0]⟩
    1 [("B", 1), ("C", 2)] (by decide)

/-- C3 (amended): when the query has at least one known song, a nearest
user is selected, and the metadata restriction leaves no candidate
index, `get_recommendations` raises (the source builds `np.array([])`,
whose dtype is float64, and numpy rejects non-integer index arrays with
an `IndexError`) — modelled as `none` — instead of returning the empty
list. -/
theorem get_recommendations_empty_metadata_errors (st : ApiState)
    (sigma : ℚ) (query : List (String × ℚ)) (u : Nat)
    (hd : userSongIndexes st.songMapping query ≠ [])
    (hu : mostSimilarUser st sigma (userSongIndexes st.songMapping query)
        = some u)
    (hv : validIndices st u = []) :
    get_recommendations st sigma query = none := by
  unfold get_recommendations
  have hde : (userSongIndexes st.songMapping query).isEmpty = false := by
    cases hcase : (userSongIndexes st.songMapping query).isEmpty
    · rfl
    · exact absurd (List.isEmpty_iff.mp hcase) hd
  simp only [hde, Bool.false_eq_true, if_false, hu, hv, List.isEmpty_nil,
    if_true]

/-- C3 witness for the amended theorem: a concrete model with an empty
metadata set; the sigma facts certify that `2` really is the standard
deviation of the query's own counts, so the modelled run is the one the
python code performs. -/
theorem get_recommendations_empty_metadata_errors_witness :
    get_recommendations ⟨[[1], [1]], [[1]], [0, 0], [0], 0,
        [("A", 0), ("B", 1)], []⟩ 2 [("A", 0), ("B", 4)] = none := by
  have h := get_recommendations_empty_metadata_errors
    ⟨[[1], [1]], [[1]], [0, 0], [0], 0, [("A", 0), ("B", 1)], []⟩ 2
    [("A", 0), ("B", 4)] 0 (by decide) ?_ (by decide)
  · exact h
  · norm_num +decide [mostSimilarUser, userDistances, pUserSongsRow,
      selectedSongs, userVector, queryCounts, sortedItems, normalize, mean,
      argsort, argsortLe, List.insertionSort, List.orderedInsert, normSq,
      vsub, dot, userSongIndexes, mappingLookup, dictInsert, dictLookup,
      List.range, List.range.loop, List.filter, List.foldl, List.find?]

/-- C3 (counterexample to the claim as stated): at the same concrete
input — two known songs, standard deviation 2, metadata-restricted
candidate set empty — the call does not return the empty list. -/
theorem get_recommendations_empty_metadata_cex :
    userSongIndexes [("A", 0), ("B", 1)] [("A", 0), ("B", 4)] ≠ [] ∧
    (0:ℚ) ≤ 2 ∧
    (2:ℚ) * 2 = variance (queryCounts
      (userSongIndexes [("A", 0), ("B", 1)] [("A", 0), ("B", 4)])) ∧
    get_recommendations ⟨[[1], [1]], [[1]], [0, 0], [0], 0,
        [("A", 0), ("B", 1)], []⟩ 2 [("A", 0), ("B", 4)] ≠ some [] := by
  refine ⟨by decide, by norm_num, ?_, ?_⟩
  · norm_num +decide [variance, queryCounts, sortedItems, mean,
      List.insertionSort, List.orderedInsert, userSongIndexes, mappingLookup,
      dictInsert, List.foldl, List.find?]
  · norm_num +decide [get_recommendations, userSongIndexes, mappingLookup,
      dictInsert, dictLookup, mostSimilarUser, userDistances, pUserSongsRow,
      selectedSongs, userVector, queryCounts, sortedItems, normalize, mean,
      argsort, argsortLe, List.insertionSort, List.orderedInsert, normSq,
      vsub, dot, validIndices, userCatalogPreds, topSongs, songMappingRevert,
      List.range, List.range.loop, List.filter, List.foldl, List.find?]

theorem find?_map_dictInsert_self (d : List (Nat × ℚ)) (k : Nat) (c : ℚ) :
    List.find? (fun kv => kv.1 == k) (dictInsert d k c) = some (k, c) := by
  unfold dictInsert
  by_cases h : d.any (fun kv => kv.1 == k)
  · rw [if_pos h]
    induction d with
    | nil => simp at h
    | cons kv0 t ih =>
        by_cases h0 : kv0.1 == k
        · simp only [List.map_cons, if_pos h0]
          rw [List.find?_cons_of_pos]
          simp
        · simp only [List.map_cons, if_neg h0]
          rw [List.find?_cons_of_neg _ (by simpa using h0)]
          exact ih (by simpa [List.any_cons, h0] using h)
  · rw [if_neg h]
    rw [List.find?_append]
    have hnone : List.find? (fun kv => kv.1 == k) d = none := by
      rw [List.find?_eq_none]
      intro kv hkv
      simp only [List.any_eq_true, not_exists, not_and] at h
      simpa using h kv hkv
    rw [hnone]
    simp

theorem find?_cons_eq_ite {α : Type _} (p : α → Bool) (a : α) (l : List α) :
    List.find? p (a :: l) = if p a then some a else List.find? p l := by
  by_cases h : p a
  · rw [List.find?_cons_of_pos _ h, if_pos h]
  · rw [List.find?_cons_of_neg _ h, if_neg h]

theorem find?_map_update_ne (t : List (Nat × ℚ)) (k i : Nat) (c : ℚ)
    (h : i ≠ k) :
    List.find? (fun kv => kv.1 == i)
        (t.map (fun kv => if kv.1 == k then (k, c) else kv))
      = List.find? (fun kv => kv.1 == i) t := by
  induction t with
  | nil => rfl
  | cons kv0 t ih =>
      by_cases h0 : kv0.1 == k
      · have c1 : ((k, c).1 == i) = false := by
          simpa using Ne.symm h
        have c2 : (kv0.1 == i) = false := by
          have hk0 : kv0.1 = k := beq_iff_eq.mp h0
          simpa [hk0] using Ne.symm h
        simp only [List.map_cons, if_pos h0, find?_cons_eq_ite, c1, c2,
          Bool.false_eq_true, if_false]
        exact ih
      · simp only [List.map_cons, if_neg h0]
        by_cases hi : kv0.1 == i
        · simp only [find?_cons_eq_ite, hi, if_true]
        · have hi' : (kv0.1 == i) = false := by simpa using hi
          simp only [find?_cons_eq_ite, hi', Bool.false_eq_true, if_false]
          exact ih

theorem find?_map_dictInsert_ne (d : List (Nat × ℚ)) (k i : Nat) (c : ℚ)
    (h : i ≠ k) :
    List.find? (fun kv => kv.1 == i) (dictInsert d k c)
      = List.find? (fun kv => kv.1 == i) d := by
  unfold dictInsert
  by_cases hp : d.any (fun kv => kv.1 == k)
  · rw [if_pos hp]
    exact find?_map_update_ne d k i c h
  · rw [if_neg hp, List.find?_append]
    have hlast : List.find? (fun kv => kv.1 == i) [(k, c)] = none := by
      simp [Ne.symm h]
    rw [hlast]
    simp

theorem dictInsert_keys_nodup (d : List (Nat × ℚ)) (k : Nat) (c : ℚ)
    (h : (d.map Prod.fst).Nodup) :
    ((dictInsert d k c).map Prod.fst).Nodup := by
  unfold dictInsert
  by_cases hp : d.any (fun kv => kv.1 == k)
  · rw [if_pos hp]
    have hmap : (d.map (fun kv => if kv.1 == k then (k, c) else kv)).map
        Prod.fst = d.map Prod.fst := by
      rw [List.map_map]
      refine List.map_congr_left (fun kv _ => ?_)
      by_cases h0 : kv.1 == k
      · have hk : kv.1 = k := beq_iff_eq.mp h0
        simp [h0, hk]
      · have hk : ¬kv.1 = k := by simpa using h0
        simp [h0, hk]
    rw [hmap]
    exact h
  · rw [if_neg hp, List.map_append]
    rw [List.nodup_append]
    refine ⟨h, List.nodup_singleton k, ?_⟩
    intro a ha hb
    simp only [List.map_cons, List.map_nil, List.mem_singleton] at hb
    subst hb
    simp only [List.any_eq_true, not_exists, not_and] at hp
    obtain ⟨kv, hkv, rfl⟩ := List.mem_map.mp ha
    exact hp kv hkv (by simp)

theorem userSongIndexes_append_singleton (mapping : List (String × Nat))
    (qs : List (String × ℚ)) (sc : String × ℚ) :
    userSongIndexes mapping (qs ++ [sc]) =
      match mappingLookup mapping sc.1 with
      | some idx => dictInsert (userSongIndexes mapping qs) idx sc.2
      | none => userSongIndexes mapping qs := by
  unfold userSongIndexes
  rw [List.foldl_append]
  rfl

/-- C10: when the same known song identifier occurs several times in the
query, `user_song_indexes` keeps exactly one entry for its index (the
key list of the dict is duplicate-free) and its count is the count of
the LAST query occurrence whose identifier maps to that index — stated
as: the dict lookup of any index `i` equals the count of the first
entry of the reversed query mapping to `i`. -/
theorem userSongIndexes_last_occurrence_wins (mapping : List (String × Nat))
    (query : List (String × ℚ)) (i : Nat) :
    dictLookup (userSongIndexes mapping query) i
      = (query.reverse.find?
          (fun sc => mappingLookup mapping sc.1 == some i)).map Prod.snd ∧
    ((userSongIndexes mapping query).map Prod.fst).Nodup := by
  induction query using List.reverseRecOn with
  | nil => exact ⟨rfl, List.nodup_nil⟩
  | append_singleton qs sc ih =>
      rw [userSongIndexes_append_singleton, List.reverse_append]
      simp only [List.reverse_cons, List.reverse_nil, List.nil_append,
        List.singleton_append]
      cases hm : mappingLookup mapping sc.1 with
      | none =>
          refine ⟨?_, ih.2⟩
          rw [List.find?_cons_of_neg _ (by simp [hm])]
          exact ih.1
      | some k =>
          by_cases hk : k = i
          · subst hk
            refine ⟨?_, dictInsert_keys_nodup _ _ _ ih.2⟩
            unfold dictLookup
            rw [find?_map_dictInsert_self,
              List.find?_cons_of_pos _ (by simp [hm])]
            rfl
          · refine ⟨?_, dictInsert_keys_nodup _ _ _ ih.2⟩
            unfold dictLookup
            rw [find?_map_dictInsert_ne _ _ _ _ (Ne.symm hk),
              List.find?_cons_of_neg _ (by simp [hm, hk])]
            exact ih.1

theorem mem_dictInsert (d : List (Nat × ℚ)) (k : Nat) (c : ℚ)
    (kv : Nat × ℚ) (h : kv ∈ dictInsert d k c) : kv ∈ d ∨ kv = (k, c) := by
  unfold dictInsert at h
  by_cases hp : d.any (fun kv => kv.1 == k)
  · rw [if_pos hp] at h
    obtain ⟨kv0, hkv0, heq⟩ := List.mem_map.mp h
    by_cases h0 : kv0.1 == k
    · right; rw [← heq]; simp [h0]
    · left; rw [← heq]; simpa [h0] using hkv0
  · rw [if_neg hp] at h
    rcases List.mem_append.mp h with h | h
    · left; exact h
    · right; simpa using h

theorem mem_userSongIndexes (mapping : List (String × Nat))
    (query : List (String × ℚ)) (kv : Nat × ℚ)
    (h : kv ∈ userSongIndexes mapping query) :
    ∃ sc ∈ query, mappingLookup mapping sc.1 = some kv.1 ∧ sc.2 = kv.2 := by
  induction query using List.reverseRecOn with
  | nil => simp [userSongIndexes] at h
  | append_singleton qs sc ih =>
      rw [userSongIndexes_append_singleton] at h
      cases hm : mappingLookup mapping sc.1 with
      | none =>
          rw [hm] at h
          obtain ⟨sc', h1, h2⟩ := ih h
          exact ⟨sc', List.mem_append_left _ h1, h2⟩
      | some k =>
          rw [hm] at h
          rcases mem_dictInsert _ _ _ _ h with h | hkv
          · obtain ⟨sc', h1, h2⟩ := ih h
            exact ⟨sc', List.mem_append_left _ h1, h2⟩
          · subst hkv
            exact ⟨sc, List.mem_append_right _ (List.mem_singleton_self sc),
              by simpa using hm, rfl⟩

theorem queryCounts_const (mapping : List (String × Nat))
    (query : List (String × ℚ)) (c : ℚ)
    (hq : ∀ sc ∈ query, (mappingLookup mapping sc.1).isSome → sc.2 = c) :
    ∀ x ∈ queryCounts (userSongIndexes mapping query), x = c := by
  intro x hx
  obtain ⟨kv, hkv, rfl⟩ := List.mem_map.mp hx
  have hkv' : kv ∈ userSongIndexes mapping query :=
    (List.perm_insertionSort _ _).mem_iff.mp hkv
  obtain ⟨sc, hsc, hm, hc⟩ := mem_userSongIndexes _ _ _ hkv'
  rw [← hc]
  exact hq sc hsc (by simp [hm])

theorem sum_const_list (l : List ℚ) (c : ℚ) (h : ∀ x ∈ l, x = c) :
    l.sum = l.length * c := by
  induction l with
  | nil => simp
  | cons a t ih =>
      rw [List.sum_cons, ih (fun x hx => h x (List.mem_cons_of_mem a hx)),
        h a (List.mem_cons_self a t), List.length_cons]
      push_cast
      ring

/-- An all-equal nonempty sample has mean `c` and variance 0, hence
standard deviation 0. -/
theorem variance_const (l : List ℚ) (c : ℚ) (hl : l ≠ [])
    (h : ∀ x ∈ l, x = c) : variance l = 0 := by
  have hn : (l.length : ℚ) ≠ 0 := by
    have := List.length_pos.mpr hl
    positivity
  have hm : mean l = c := by
    rw [mean, sum_const_list l c h, mul_comm, mul_div_assoc, div_self hn,
      mul_one]
  have h0 : ∀ y ∈ l.map (fun x => (x - mean l) ^ 2), y = 0 := by
    intro y hy
    obtain ⟨x, hx, rfl⟩ := List.mem_map.mp hy
    rw [h x hx, hm]
    ring
  rw [variance, sum_const_list _ 0 h0, mul_zero, zero_div]

/-- C8: if every known song of the query carries the same listening
count `c` (in particular whenever exactly one song is known), the
standard deviation of the counts that `get_recommendations` feeds to
`normalize` is exactly 0 and the division is unguarded, so every entry
of the query vector is undefined (NaN), while the call itself neither
fails nor handles the case. -/
theorem query_vector_undefined_on_constant_counts (st : ApiState)
    (sigma c : ℚ) (query : List (String × ℚ))
    (hq : ∀ sc ∈ query, (mappingLookup st.songMapping sc.1).isSome →
      sc.2 = c)
    (hne : userSongIndexes st.songMapping query ≠ [])
    (hs : 0 ≤ sigma)
    (hv : sigma * sigma
        = variance (queryCounts (userSongIndexes st.songMapping query))) :
    sigma = 0 ∧
    normalizeUndef sigma (queryCounts (userSongIndexes st.songMapping query))
      = List.replicate
          (queryCounts (userSongIndexes st.songMapping query)).length none ∧
    (queryCounts (userSongIndexes st.songMapping query)).length ≠ 0 := by
  have _ := hs
  have hlen : (queryCounts (userSongIndexes st.songMapping query)).length
      = (userSongIndexes st.songMapping query).length := by
    unfold queryCounts sortedItems
    rw [List.length_map]
    exact (List.perm_insertionSort _ _).length_eq
  have hclen : queryCounts (userSongIndexes st.songMapping query) ≠ [] := by
    intro hc
    apply hne
    have hlc := congrArg List.length hc
    rw [hlen] at hlc
    simpa using List.length_eq_zero.mp (by simpa using hlc)
  have hvar := variance_const _ c hclen
    (queryCounts_const st.songMapping query c hq)
  have hs0 : sigma = 0 := mul_self_eq_zero.mp (by rw [hv, hvar])
  subst hs0
  refine ⟨rfl, ?_, fun hc => hclen (List.length_eq_zero.mp hc)⟩
  rw [List.eq_replicate_iff]
  refine ⟨by rw [normalizeUndef, List.length_map], ?_⟩
  intro b hb
  obtain ⟨x, _, rfl⟩ := List.mem_map.mp hb
  rw [fdiv, if_pos rfl]

/-- C8 witness: a concrete query with exactly one known song, count 5:
the standard deviation is 0 and every query-vector entry is NaN. -/
theorem query_vector_undefined_witness :
    (0:ℚ) = 0 ∧
    normalizeUndef 0 (queryCounts (userSongIndexes [("A", 0)] [("A", 5)]))
      = List.replicate
          (queryCounts (userSongIndexes [("A", 0)] [("A", 5)])).length none ∧
    (queryCounts (userSongIndexes [("A", 0)] [("A", 5)])).length ≠ 0 :=
  query_vector_undefined_on_constant_counts
    ⟨[[1]], [[1]], [0], [0], 0, [("A", 0)], [0]⟩ 0 5 [("A", 5)]
    (by decide) (by decide) (by norm_num)
    (by norm_num +decide [variance, mean, queryCounts, sortedItems,
      userSongIndexes, mappingLookup, dictInsert, List.insertionSort,
      List.orderedInsert, List.foldl, List.find?])

instance argsortLeTotalInst (v : Vec) : IsTotal Nat (argsortLe v) := by
  constructor
  intro i j
  rcases lt_trichotomy (v.getD i 0) (v.getD j 0) with h | h | h
  · exact Or.inl (Or.inl h)
  · rcases Nat.le_total i j with hij | hij
    · exact Or.inl (Or.inr ⟨h, hij⟩)
    · exact Or.inr (Or.inr ⟨h.symm, hij⟩)
  · exact Or.inr (Or.inl h)

instance argsortLeTransInst (v : Vec) : IsTrans Nat (argsortLe v) := by
  constructor
  intro a b c hab hbc
  rcases hab with h1 | ⟨h1, h1'⟩
  · rcases hbc with h2 | ⟨h2, _⟩
    · exact Or.inl (h1.trans h2)
    · exact Or.inl (by rw [← h2]; exact h1)
  · rcases hbc with h2 | ⟨h2, h2'⟩
    · exact Or.inl (by rw [h1]; exact h2)
    · exact Or.inr ⟨h1.trans h2, h1'.trans h2'⟩

theorem argsort_perm (v : Vec) :
    List.Perm (argsort v) (List.range v.length) :=
  List.perm_insertionSort _ _

theorem argsort_sorted (v : Vec) : List.Pairwise (argsortLe v) (argsort v) :=
  List.sorted_insertionSort _ _

theorem argsort_nodup (v : Vec) : (argsort v).Nodup :=
  (argsort_perm v).nodup_iff.mpr (List.nodup_range _)

theorem argsort_mem {v : Vec} {j : Nat} (h : j ∈ argsort v) : j < v.length :=
  List.mem_range.mp ((argsort_perm v).mem_iff.mp h)

theorem getD_map_lt {α β : Type _} (f : α → β) (l : List α) (j : Nat)
    (h : j < l.length) (d : β) (d0 : α) :
    (l.map f).getD j d = f (l.getD j d0) := by
  rw [List.getD_eq_getElem?_getD, List.getD_eq_getElem?_getD,
    List.getElem?_map, List.getElem?_eq_getElem h]
  simp

theorem getD_mem_of_lt (l : List Nat) (a : Nat) (h : a < l.length) :
    l.getD a 0 ∈ l := by
  rw [List.getD_eq_getElem?_getD, List.getElem?_eq_getElem h]
  exact List.getElem_mem h

theorem sorted_lt_getD_lt (l : List Nat) (hl : List.Pairwise (· < ·) l)
    (a b : Nat) (ha : a < l.length) (hb : b < l.length) (hab : a < b) :
    l.getD a 0 < l.getD b 0 := by
  have h := List.pairwise_iff_get.mp hl ⟨a, ha⟩ ⟨b, hb⟩ hab
  simpa [List.getD_eq_getElem?_getD, List.getElem?_eq_getElem, ha, hb,
    List.get_eq_getElem] using h

/-- The index list produced by the top-5 selection
`valid_indices[preds[valid_indices].argsort()[-5:][::-1]]`, generic in
the prediction vector and the (ascending) candidate list. -/
def topSelect (preds : Vec) (vi : List Nat) : List Nat :=
  ((argsort (vi.map (fun i => preds.getD i 0))).reverse.take 5).map
    (fun j => vi.getD j 0)

theorem topSongs_eq_topSelect (st : ApiState) (u : Nat) :
    topSongs st u = topSelect (userCatalogPreds st u) (validIndices st u) :=
  rfl

/-- Ordering contract of the top-5 selection over a strictly ascending
candidate list: at most five results, all candidates, duplicate-free,
ordered by decreasing prediction with ties broken by DECREASING
candidate index (the `[::-1]` reversal flips the stable ascending
argsort, so equal values come out larger-index-first). -/
theorem topSelect_spec (preds : Vec) (vi : List Nat)
    (hvi : List.Pairwise (· < ·) vi) :
    (topSelect preds vi).length ≤ 5 ∧
    (∀ s ∈ topSelect preds vi, s ∈ vi) ∧
    (topSelect preds vi).Nodup ∧
    List.Pairwise (fun s1 s2 => preds.getD s2 0 < preds.getD s1 0 ∨
      (preds.getD s1 0 = preds.getD s2 0 ∧ s2 < s1)) (topSelect preds vi) := by
  set scores := vi.map (fun i => preds.getD i 0) with hscores
  set P := (argsort scores).reverse.take 5 with hPdef
  have hPsub : ∀ j ∈ P, j ∈ argsort scores := fun j hj =>
    List.mem_reverse.mp (List.take_subset _ _ hj)
  have hmemP : ∀ j ∈ P, j < vi.length := by
    intro j hj
    have := argsort_mem (hPsub j hj)
    rwa [hscores, List.length_map] at this
  have hNodP : P.Nodup :=
    List.Nodup.sublist (List.take_sublist _ _)
      (List.nodup_reverse.mpr (argsort_nodup scores))
  have hPairP : List.Pairwise (fun a b => argsortLe scores b a) P :=
    List.Pairwise.sublist (List.take_sublist _ _)
      (List.pairwise_reverse.mpr (argsort_sorted scores))
  have hPairNe : List.Pairwise
      (fun a b => (fun x y => argsortLe scores y x) a b ∧ a ≠ b) P :=
    hPairP.and hNodP
  have hout : topSelect preds vi = P.map (fun j => vi.getD j 0) := rfl
  refine ⟨?_, ?_, ?_, ?_⟩
  · rw [hout, List.length_map, hPdef, List.length_take]
    exact min_le_left _ _
  · intro s hs
    rw [hout] at hs
    obtain ⟨a, ha, rfl⟩ := List.mem_map.mp hs
    exact getD_mem_of_lt vi a (hmemP a ha)
  · rw [hout]
    refine hNodP.map_on ?_
    intro x hx y hy hxy
    by_contra hne
    rcases Nat.lt_or_ge x y with hlt | hge
    · exact absurd hxy
        (Nat.ne_of_lt (sorted_lt_getD_lt vi hvi x y (hmemP x hx)
          (hmemP y hy) hlt))
    · have hlt : y < x := Nat.lt_of_le_of_ne hge (Ne.symm hne)
      exact absurd hxy.symm
        (Nat.ne_of_lt (sorted_lt_getD_lt vi hvi y x (hmemP y hy)
          (hmemP x hx) hlt))
  · rw [hout]
    rw [List.pairwise_map]
    refine hPairNe.imp_of_mem ?_
    intro a b ha hb hab
    obtain ⟨hrel, hne⟩ := hab
    have ha' := hmemP a ha
    have hb' := hmemP b hb
    have hsa : scores.getD a 0 = preds.getD (vi.getD a 0) 0 := by
      rw [hscores]
      exact getD_map_lt _ vi a ha' 0 0
    have hsb : scores.getD b 0 = preds.getD (vi.getD b 0) 0 := by
      rw [hscores]
      exact getD_map_lt _ vi b hb' 0 0
    rcases hrel with hlt | ⟨heq, hle⟩
    · left
      rw [← hsa, ← hsb]
      exact hlt
    · right
      have hba : b < a := Nat.lt_of_le_of_ne hle (Ne.symm hne)
      refine ⟨by rw [← hsa, ← hsb]; exact heq.symm, ?_⟩
      exact sorted_lt_getD_lt vi hvi b a hb' ha' hba

theorem validIndices_sorted (st : ApiState) (u : Nat) :
    List.Pairwise (· < ·) (validIndices st u) := by
  unfold validIndices
  exact List.Pairwise.filter _ (List.pairwise_lt_range _)

theorem nodup_keys_pair_eq {l : List (String × Nat)}
    (h : (l.map Prod.fst).Nodup) {a b : String × Nat}
    (ha : a ∈ l) (hb : b ∈ l) (hfst : a.1 = b.1) : a = b := by
  induction l with
  | nil => cases ha
  | cons x t ih =>
      simp only [List.map_cons, List.nodup_cons] at h
      rcases List.mem_cons.mp ha with rfl | ha'
      · rcases List.mem_cons.mp hb with rfl | hb'
        · rfl
        · exact absurd (hfst ▸ List.mem_map_of_mem Prod.fst hb') h.1
      · rcases List.mem_cons.mp hb with rfl | hb'
        · exact absurd (hfst ▸ List.mem_map_of_mem Prod.fst ha') h.1
        · exact ih h.2 ha' hb'

theorem songMappingRevert_found (st : ApiState) (i : Nat)
    (hi : ∃ kv ∈ st.songMapping, kv.2 = i) :
    ∃ kv ∈ st.songMapping, kv.2 = i ∧ songMappingRevert st i = kv.1 := by
  have hsome : (st.songMapping.find? (fun kv => kv.2 == i)).isSome := by
    rw [List.find?_isSome]
    obtain ⟨kv, h1, h2⟩ := hi
    exact ⟨kv, h1, by simp [h2]⟩
  obtain ⟨kv, hkv⟩ := Option.isSome_iff_exists.mp hsome
  refine ⟨kv, List.mem_of_find?_eq_some hkv, ?_, ?_⟩
  · simpa using List.find?_some hkv
  · unfold songMappingRevert
    rw [hkv]
    rfl

theorem songMappingRevert_inj (st : ApiState)
    (hkeys : (st.songMapping.map Prod.fst).Nodup) {i j : Nat}
    (hi : ∃ kv ∈ st.songMapping, kv.2 = i)
    (hj : ∃ kv ∈ st.songMapping, kv.2 = j)
    (h : songMappingRevert st i = songMappingRevert st j) : i = j := by
  obtain ⟨kvi, hmi, hii, hri⟩ := songMappingRevert_found st i hi
  obtain ⟨kvj, hmj, hjj, hrj⟩ := songMappingRevert_found st j hj
  have heq : kvi = kvj :=
    nodup_keys_pair_eq hkeys hmi hmj (by rw [← hri, ← hrj, h])
  rw [← hii, ← hjj, heq]

theorem mem_validIndices_exists_key (st : ApiState) (u : Nat)
    (hmeta : ∀ i ∈ st.metaIndices, ∃ kv ∈ st.songMapping, kv.2 = i)
    {s : Nat} (hs : s ∈ validIndices st u) :
    ∃ kv ∈ st.songMapping, kv.2 = s := by
  unfold validIndices at hs
  obtain ⟨-, hsp⟩ := List.mem_filter.mp hs
  exact hmeta s (by simpa [List.contains_eq_any_beq] using hsp)

/-- C4 (amended): when the query has at least one known song, a nearest
user `u` is selected, and the metadata-restricted candidate set is
nonempty, `get_recommendations` returns at most 5 song identifiers —
the images of `topSongs`, candidate indices of the metadata-restricted
catalog — ordered by descending predicted score of user `u`, with ties
between equal predicted scores broken by DESCENDING (not ascending)
original song index, and no identifier repeated.  (`hkeys` and `hmeta`
hold by construction in `api.py`: dict keys are unique and every
metadata index is the image of a mapping entry.) -/
theorem get_recommendations_top5 (st : ApiState) (sigma : ℚ)
    (query : List (String × ℚ)) (u : Nat)
    (hd : userSongIndexes st.songMapping query ≠ [])
    (hu : mostSimilarUser st sigma (userSongIndexes st.songMapping query)
        = some u)
    (hv : validIndices st u ≠ [])
    (hkeys : (st.songMapping.map Prod.fst).Nodup)
    (hmeta : ∀ i ∈ st.metaIndices, ∃ kv ∈ st.songMapping, kv.2 = i) :
    get_recommendations st sigma query
        = some ((topSongs st u).map (songMappingRevert st)) ∧
    ((topSongs st u).map (songMappingRevert st)).length ≤ 5 ∧
    (∀ s ∈ topSongs st u, s ∈ validIndices st u) ∧
    List.Pairwise (fun s1 s2 =>
      (userCatalogPreds st u).getD s2 0 < (userCatalogPreds st u).getD s1 0 ∨
      ((userCatalogPreds st u).getD s1 0 = (userCatalogPreds st u).getD s2 0 ∧
        s2 < s1)) (topSongs st u) ∧
    (topSongs st u).Nodup ∧
    ((topSongs st u).map (songMappingRevert st)).Nodup := by
  obtain ⟨hlen, hmem, hnod, hpair⟩ :=
    topSelect_spec (userCatalogPreds st u) (validIndices st u)
      (validIndices_sorted st u)
  rw [← topSongs_eq_topSelect] at hlen hmem hnod hpair
  refine ⟨?_, ?_, hmem, hpair, hnod, ?_⟩
  · unfold get_recommendations
    have hde : (userSongIndexes st.songMapping query).isEmpty = false := by
      cases hcase : (userSongIndexes st.songMapping query).isEmpty
      · rfl
      · exact absurd (List.isEmpty_iff.mp hcase) hd
    have hve : (validIndices st u).isEmpty = false := by
      cases hcase : (validIndices st u).isEmpty
      · rfl
      · exact absurd (List.isEmpty_iff.mp hcase) hv
    simp only [hde, Bool.false_eq_true, if_false, hu, hve]
  · rw [List.length_map]
    exact hlen
  · refine hnod.map_on ?_
    intro x hx y hy hxy
    exact songMappingRevert_inj st hkeys
      (mem_validIndices_exists_key st u hmeta (hmem x hx))
      (mem_validIndices_exists_key st u hmeta (hmem y hy)) hxy

/-- A concrete api state exhibiting the tie-break direction: one trained
user with zero factors and zero biases, so both catalog songs receive
exactly the same predicted score. -/
def tieSt : ApiState :=
  ⟨[[0], [0]], [[0]], [0, 0], [0], 0, [("A", 0), ("B", 1)], [0, 1]⟩

/-- C4 (counterexample to the claim as stated): with both predicted
scores equal, the recommendations come out `["B", "A"]` — song indices
`[1, 0]`, i.e. DESCENDING index on the tie — so the output does not
satisfy the ascending-index tie-break ordering the claim states.  The
sigma facts certify that `2` is the true standard deviation of the
query's counts, so the modelled run is the one the python code
performs. -/
theorem top5_tie_break_cex :
    (0:ℚ) ≤ 2 ∧
    (2:ℚ) * 2 = variance (queryCounts
      (userSongIndexes [("A", 0), ("B", 1)] [("A", 0), ("B", 4)])) ∧
    mostSimilarUser tieSt 2
      (userSongIndexes [("A", 0), ("B", 1)] [("A", 0), ("B", 4)]) = some 0 ∧
    (userCatalogPreds tieSt 0).getD 0 0 = (userCatalogPreds tieSt 0).getD 1 0 ∧
    topSongs tieSt 0 = [1, 0] ∧
    get_recommendations tieSt 2 [("A", 0), ("B", 4)] = some ["B", "A"] ∧
    ¬ List.Pairwise (fun s1 s2 =>
        (userCatalogPreds tieSt 0).getD s2 0
            < (userCatalogPreds tieSt 0).getD s1 0 ∨
        ((userCatalogPreds tieSt 0).getD s1 0
            = (userCatalogPreds tieSt 0).getD s2 0 ∧ s1 < s2))
      (topSongs tieSt 0) := by
  refine ⟨by norm_num, ?_, ?_, ?_, ?_, ?_, ?_⟩ <;>
    norm_num +decide [tieSt, get_recommendations, userSongIndexes,
      mappingLookup, dictInsert, dictLookup, mostSimilarUser, userDistances,
      pUserSongsRow, selectedSongs, userVector, queryCounts, sortedItems,
      normalize, mean, variance, argsort, argsortLe, List.insertionSort,
      List.orderedInsert, normSq, vsub, dot, validIndices, userCatalogPreds,
      topSongs, songMappingRevert, List.range, List.range.loop, List.filter,
      List.foldl, List.find?, List.pairwise_cons]

/-- C4 witness: the amended top-5 theorem applied at the concrete tied
instance. -/
theorem get_recommendations_top5_witness :
    get_recommendations tieSt 2 [("A", 0), ("B", 4)]
        = some ((topSongs tieSt 0).map (songMappingRevert tieSt)) ∧
    ((topSongs tieSt 0).map (songMappingRevert tieSt)).length ≤ 5 ∧
    (∀ s ∈ topSongs tieSt 0, s ∈ validIndices tieSt 0) ∧
    List.Pairwise (fun s1 s2 =>
      (userCatalogPreds tieSt 0).getD s2 0
          < (userCatalogPreds tieSt 0).getD s1 0 ∨
      ((userCatalogPreds tieSt 0).getD s1 0
          = (userCatalogPreds tieSt 0).getD s2 0 ∧ s2 < s1))
      (topSongs tieSt 0) ∧
    (topSongs tieSt 0).Nodup ∧
    ((topSongs tieSt 0).map (songMappingRevert tieSt)).Nodup :=
  get_recommendations_top5 tieSt 2 [("A", 0), ("B", 4)] 0
    (by decide)
    (by norm_num +decide [tieSt, userSongIndexes, mappingLookup, dictInsert,
      dictLookup, mostSimilarUser, userDistances, pUserSongsRow,
      selectedSongs, userVector, queryCounts, sortedItems, normalize, mean,
      argsort, argsortLe, List.insertionSort, List.orderedInsert, normSq,
      vsub, dot, List.range, List.range.loop, List.filter, List.foldl,
      List.find?])
    (by decide) (by decide) (by decide)

end MusicReco
